import Mathlib

/-!
Verification of the incremental vector-index synchronization engine and the
search pipeline of the LLM-Search repository.

The development shallowly embeds the relevant Python modules:
  * `llm_search/database.py`   — the SQLite metadata store (`embeddings` table),
  * `llm_search/indexer.py`    — `Indexer.update_index`, `Indexer.remove_from_index`,
    `Indexer.init_index`,
  * `llm_search/searcher.py`   — `Searcher._search_task`,
  * `llm_search/extractor.py`  — `extract_text_from_file`, `is_text_file`.

Modelling conventions:
  * Embedding vectors are integer-component lists; the FAISS `IndexFlatL2`
    distance is the exact squared euclidean distance (`sqDist`).
  * The SQLite table is a list of rows in physical order.  Rowid allocation
    follows SQLite: a fresh row gets `max rowid + 1` (1 on an empty table),
    and `INSERT OR REPLACE` first deletes the row with the conflicting
    `(file_path, chunk_index)` key, then inserts a new row with a fresh rowid.
  * The external embedder (`get_document_embeddings`) and the file system
    (mtimes, file contents, mimetype guesses) are parameters.
  * The index-updated notification callback is modelled by a counter of
    invocations (`callbackCount`).
-/

namespace LLMSearch

/-- An embedding vector with integer components. -/
abbrev Vec := List Int

/-- One row of the `embeddings` table of `database.py`:
`(id INTEGER PRIMARY KEY, file_path, chunk_index, embedding, last_modified,
UNIQUE(file_path, chunk_index))`. -/
structure Chunk where
  id : Nat
  file_path : String
  chunk_index : Nat
  embedding : Vec
  last_modified : Int
deriving DecidableEq, Repr

/-- The metadata store: the rows of the `embeddings` table in physical order. -/
abbrev Store := List Chunk

/-- Largest rowid present in the table, `0` for an empty table.  SQLite
assigns `maxId + 1` to a freshly inserted row. -/
def maxId (db : Store) : Nat := db.foldr (fun c m => max c.id m) 0

/-- `get_last_modified_time` of `database.py`:
`SELECT MAX(last_modified) FROM embeddings WHERE file_path = ?`.
`MAX` over an empty set is SQL `NULL`, surfaced to Python as `None`. -/
def get_last_modified_time (db : Store) (file_path : String) : Option Int :=
  ((db.filter (fun c => decide (c.file_path = file_path))).map (fun c => c.last_modified)).max?

/-- The insertion loop of `insert_or_update_embedding` (`database.py` lines 47-53):
for every `(chunk_index, embedding)` pair, `INSERT OR REPLACE` a row keyed
`(file_path, chunk_index)` — delete the conflicting row, insert a fresh row
with rowid `maxId + 1` — and record `lastrowid`. -/
def insertLoop (file_path : String) (last_modified : Int) :
    Store → Nat → List Vec → Store × List Nat
  | db, _, [] => (db, [])
  | db, i, emb :: rest =>
    let db1 := db.filter (fun c => !(decide (c.file_path = file_path) && decide (c.chunk_index = i)))
    let nid := maxId db1 + 1
    let db2 := db1 ++ [⟨nid, file_path, i, emb, last_modified⟩]
    let r := insertLoop file_path last_modified db2 (i + 1) rest
    (r.1, nid :: r.2)

/-- `insert_or_update_embedding` of `database.py`: compute the set of existing
chunk indices of the file, delete those not among `0 .. len(embeddings) - 1`,
then `INSERT OR REPLACE` one row per embedding, returning the new rowids. -/
def insert_or_update_embedding (db : Store) (file_path : String) (embeddings : List Vec)
    (last_modified : Int) : Store × List Nat :=
  let existing_chunks := (db.filter (fun c => decide (c.file_path = file_path))).map
    (fun c => c.chunk_index)
  let new_chunks := List.range embeddings.length
  let chunks_to_delete := existing_chunks.filter (fun i => !(decide (i ∈ new_chunks)))
  let db0 := db.filter (fun c =>
    !(decide (c.file_path = file_path) && decide (c.chunk_index ∈ chunks_to_delete)))
  insertLoop file_path last_modified db0 0 embeddings

/-- The FAISS `IndexIDMap`: the sequence of `(id, vector)` entries in
insertion order.  `add_with_ids` appends; duplicate ids are kept as distinct
entries, exactly as FAISS does. -/
abbrev Index := List (Nat × Vec)

/-- `index.add_with_ids`: append the entries. -/
def add_with_ids (index : Index) (entries : List (Nat × Vec)) : Index := index ++ entries

/-- `index.remove_ids`: drop every entry whose id is listed (ids not present
are ignored). -/
def remove_ids (index : Index) (ids : List Nat) : Index :=
  index.filter (fun e => !(decide (e.1 ∈ ids)))

/-- Exact squared L2 distance, the metric of `faiss.IndexFlatL2`. -/
def sqDist (q v : Vec) : Int := ((q.zip v).map (fun p => (p.1 - p.2) ^ 2)).sum

/-- The in-memory state mutated by the `Indexer`: the SQLite store, the FAISS
index, and the number of `on_index_update_callback` invocations so far. -/
structure SysState where
  db : Store
  index : Index
  callbackCount : Nat
deriving DecidableEq, Repr

/-- `os.path.basename` for forward-slash paths: the part after the last `/`. -/
def basename (p : String) : String :=
  String.mk ((p.toList.reverse.takeWhile (fun ch => decide (ch ≠ '/'))).reverse)

/-- The extension part of `os.path.splitext` applied to a bare file name:
everything from the last dot on, unless every character before that dot is
itself a dot (so `.bashrc` has no extension). -/
def splitextExt (name : String) : String :=
  let cs := name.toList
  let dotPositions := (cs.enum.filter (fun p => decide (p.2 = '.'))).map (fun p => p.1)
  match dotPositions.getLast? with
  | none => ""
  | some d => if (cs.take d).all (fun ch => decide (ch = '.')) then "" else String.mk (cs.drop d)

/-- The file-information preamble prepended by `Indexer.update_index`
(`indexer.py` lines 152-159) — the rendered f-string with `file_name`,
`file_path` and `file_extension`. -/
def preamble (file_path : String) : String :=
  let file_name := basename file_path
  let file_extension := splitextExt file_name
  "\x7b\n                \"file_name\": \"" ++ file_name ++
    "\",\n                \"file_path\": \"" ++ file_path ++
    "\",\n                \"file_extension\": \"" ++ file_extension ++
    "\",\n            \x7d"

/-- `Indexer.update_index` of `indexer.py` (lines 144-186).  Parameters that
belong to external collaborators: `embed` is `get_document_embeddings`,
`mtime` is `os.path.getmtime(file_path)`, and `extracted` is the result of
`extract_text_from_file(file_path)`. -/
def update_index (embed : String → List Vec) (file_path : String) (mtime : Int)
    (extracted : String) (force_update : Bool) (s : SysState) : SysState :=
  let db_last_modified := get_last_modified_time s.db file_path
  if force_update || db_last_modified.isNone ||
      (match db_last_modified with
       | none => true
       | some t => decide (t < mtime)) then
    let text := preamble file_path ++ "\n\n" ++ extracted
    if text = "" then s
    else
      let embeddings := embed text
      let r := insert_or_update_embedding s.db file_path embeddings mtime
      let chunk_ids := r.2
      let existing_chunk_ids := ((r.1.filter (fun c => decide (c.file_path = file_path))).map
        (fun c => c.id))
      let chunks_to_remove := existing_chunk_ids.filter (fun i => !(decide (i ∈ chunk_ids)))
      let index1 := if chunks_to_remove.isEmpty then s.index else remove_ids s.index chunks_to_remove
      let index2 := add_with_ids index1 (chunk_ids.zip embeddings)
      { db := r.1, index := index2, callbackCount := s.callbackCount + 1 }
  else s

/-- `Indexer.remove_from_index` of `indexer.py` (lines 188-201): look up the
file's chunk ids; when there are any, remove them from the FAISS index,
delete the file's rows, and fire the callback; otherwise do nothing. -/
def remove_from_index (file_path : String) (s : SysState) : SysState :=
  let chunk_ids := (s.db.filter (fun c => decide (c.file_path = file_path))).map (fun c => c.id)
  if chunk_ids.isEmpty then s
  else
    { db := s.db.filter (fun c => !(decide (c.file_path = file_path))),
      index := remove_ids s.index chunk_ids,
      callbackCount := s.callbackCount + 1 }

/-- `EXCLUDE_DIRS` of `extractor.py`. -/
def EXCLUDE_DIRS : List String :=
  ["site-packages", "vendor", "get-pip", "node_modules", "dist",
   "build", "venv", "env", "target", "docker", "tmp"]

/-- Python's substring test `needle in haystack`. -/
def containsSub (haystack needle : String) : Bool :=
  decide (needle.toList <:+: haystack.toList)

/-- Python's `str.endswith`. -/
def strEndsWith (s suffix : String) : Bool := decide (suffix.toList <:+ s.toList)

/-- Python's `str.startswith`. -/
def strStartsWith (s pre : String) : Bool := decide (pre.toList <+: s.toList)

/-- `is_text_file` of `extractor.py`; `guessMime` stands for
`mimetypes.guess_type`.  A `None` mime type is falsy in Python, so the final
`mime_type and mime_type.startswith('text')` yields `False`. -/
def is_text_file (guessMime : String → Option String) (file_path : String) : Bool :=
  if [".css", ".xml", ".json", ".yaml", ".yml", ".toml"].any
      (fun ending => strEndsWith file_path ending) then false
  else if strEndsWith file_path ".md" then true
  else
    match guessMime file_path with
    | some m => strStartsWith m "text"
    | none => false

/-- `extract_text_from_file` of `extractor.py`; `readFile` stands for the
`open(...).read()` call, `none` meaning a `UnicodeDecodeError` or `IOError`. -/
def extract_text_from_file (guessMime : String → Option String)
    (readFile : String → Option String) (file_path : String) : String :=
  if EXCLUDE_DIRS.any (fun d => containsSub file_path d) then ""
  else if !(is_text_file guessMime file_path) then ""
  else
    match readFile file_path with
    | some content => content
    | none => ""

/-- The distance FAISS reports for `-1` padding entries (`FLT_MAX`). -/
def PAD_DIST : Int := 340282346638528859811704183484516925440

/-- The candidate order of `IndexFlatL2.search`: ascending distance, ties
broken by id (one deterministic representative of FAISS's unspecified tie
order). -/
def knnLe (a b : Int × Int) : Prop := a.2 < b.2 ∨ (a.2 = b.2 ∧ a.1 ≤ b.1)

instance : DecidableRel knnLe := fun a b => by unfold knnLe; infer_instance

/-- `index.search(query, k)` of the FAISS `IndexIDMap`: the `k` nearest
`(id, squared-distance)` pairs in ascending-distance order, padded with the
`-1` sentinel when fewer than `k` entries exist. -/
def knn (index : Index) (q : Vec) (k : Nat) : List (Int × Int) :=
  let scored := index.map (fun e => ((e.1 : Int), sqDist q e.2))
  let sorted := List.insertionSort knnLe scored
  let res := sorted.take k
  res ++ List.replicate (k - res.length) (-1, PAD_DIST)

/-- The `ORDER BY id` of `Indexer.init_index`. -/
def rowIdLe (a b : Chunk) : Prop := a.id ≤ b.id

instance : DecidableRel rowIdLe := fun a b => by unfold rowIdLe; infer_instance

/-- `SELECT id, embedding FROM embeddings ORDER BY id` (`indexer.py`
lines 63-81): all `(id, vector)` pairs of the store, in id order. -/
def load_all (db : Store) : List (Nat × Vec) :=
  (List.insertionSort rowIdLe db).map (fun c => (c.id, c.embedding))

/-- `Indexer.init_index`: build a fresh (empty) FAISS index and add every
`(id, vector)` pair read from the store. -/
def init_index (db : Store) : Index := add_with_ids [] (load_all db)

/-- `SELECT file_path FROM embeddings WHERE id = ?` followed by `fetchone`:
the file path of the first row with the given id, if any. -/
def db_file_path (db : Store) (idx : Int) : Option String :=
  (db.find? (fun c => decide ((c.id : Int) = idx))).map (fun c => c.file_path)

/-- `distances[0][np.where(indices[0] == idx)[0][0]]` (`searcher.py` line 69):
the distance recorded at the first occurrence of `idx` in the candidate
list. -/
def find_dist (orig : List (Int × Int)) (idx : Int) : Int :=
  match orig.find? (fun p => decide (p.1 = idx)) with
  | some p => p.2
  | none => 0

/-- The result walk of `Searcher._search_task` (`searcher.py` lines 55-77).
`orig` is the full candidate list (used by the `np.where` distance lookup),
`cands` the part not yet visited, `results` and `uniq` the accumulators
`results` and `unique_files`.  `cancelled` models `future.cancelled()`:
when it is observed the walk returns `[]`. -/
def search_walk_go (db : Store) (cancelled : Bool) (orig : List (Int × Int)) (top_n : Nat) :
    List (Int × Int) → List (String × Int) → List String → List (String × Int)
  | [], results, _ => results
  | (idx, _) :: rest, results, uniq =>
    if cancelled then []
    else if idx = -1 then results
    else
      match db_file_path db idx with
      | some fp =>
        if decide (fp ∈ uniq) then search_walk_go db cancelled orig top_n rest results uniq
        else
          let results2 := results ++ [(fp, find_dist orig idx)]
          if results2.length = top_n then results2
          else search_walk_go db cancelled orig top_n rest results2 (fp :: uniq)
      | none => search_walk_go db cancelled orig top_n rest results uniq

/-- The result walk started on a candidate list, with empty accumulators. -/
def search_walk (db : Store) (cancelled : Bool) (cands : List (Int × Int))
    (top_n : Nat) : List (String × Int) :=
  search_walk_go db cancelled cands top_n cands [] []

/-- `SELECT COUNT(DISTINCT file_path) FROM embeddings`. -/
def countDistinctFiles (db : Store) : Nat := ((db.map (fun c => c.file_path)).dedup).length

/-- Lines 45-51 of `searcher.py`: the effective `top_n` and the candidate
count `upper_bound_top_n` requested from the index — `5 * top_n` when
`top_n` is given, otherwise both become the distinct-file count. -/
def search_task_params (db : Store) (top_n : Option Nat) : Nat × Nat :=
  match top_n with
  | some n => (n, 5 * n)
  | none =>
    let n := countDistinctFiles db
    (n, n)

/-- `Searcher._search_task` (minus the embedding call): request
`upper_bound_top_n` candidates from the index and walk them. -/
def search_task (db : Store) (index : Index) (q : Vec) (top_n : Option Nat)
    (cancelled : Bool) : List (String × Int) :=
  let p := search_task_params db top_n
  search_walk db cancelled (knn index q p.2) p.1

/-- A concrete stand-in embedder for counterexamples: one chunk per text,
whose single component is the text's length. -/
def eEmbed (s : String) : List Vec := [[(s.length : Int)]]

/-- Concrete store used by witness instantiations: two chunks of file `a`
and one chunk of file `b`. -/
def wDb : Store := [⟨1, "a", 0, [0], 1⟩, ⟨2, "a", 1, [1], 1⟩, ⟨3, "b", 0, [5], 1⟩]

/-- Concrete candidate list used by witness instantiations: ascending
distances, `-1`-padded at the tail as FAISS produces. -/
def wCands : List (Int × Int) := [(1, 0), (2, 1), (3, 25), (-1, PAD_DIST)]

/-! ### The upsert characterization (claim C4 and supporting lemmas) -/

/-- A row survives the combined replacement window `[i, i + n)` for `file_path`
iff it is not a row of that file with chunk index in the window. -/
def keepOutside (file_path : String) (i n : Nat) (c : Chunk) : Bool :=
  !(decide (c.file_path = file_path) && decide (i ≤ c.chunk_index) &&
    decide (c.chunk_index < i + n))

theorem keepOutside_split (file_path : String) (i n : Nat) (c : Chunk) :
    (keepOutside file_path (i + 1) n c &&
      !(decide (c.file_path = file_path) && decide (c.chunk_index = i)))
      = keepOutside file_path i (n + 1) c := by
  rw [Bool.eq_iff_iff]
  by_cases h : c.file_path = file_path <;> simp [keepOutside, h]
  omega

theorem insertLoop_spec (file_path : String) (last_modified : Int) :
    ∀ (embs : List Vec) (i : Nat) (db : Store),
      (insertLoop file_path last_modified db i embs).2.length = embs.length ∧
      (insertLoop file_path last_modified db i embs).1 =
        db.filter (keepOutside file_path i embs.length) ++
          ((insertLoop file_path last_modified db i embs).2.zip (embs.enumFrom i)).map
            (fun p => ⟨p.1, file_path, p.2.1, p.2.2, last_modified⟩)
  | [], i, db => by
    refine ⟨rfl, ?_⟩
    have hall : ∀ c ∈ db, keepOutside file_path i 0 c = true := by
      intro c _
      simp [keepOutside]
      omega
    simp [insertLoop, List.filter_eq_self.mpr hall]
  | emb :: rest, i, db => by
    set db1 := db.filter
      (fun c => !(decide (c.file_path = file_path) && decide (c.chunk_index = i))) with hdb1
    set nid := maxId db1 + 1 with hnid
    set row : Chunk := ⟨nid, file_path, i, emb, last_modified⟩ with hrow
    set db2 := db1 ++ [row] with hdb2
    obtain ⟨ih1, ih2⟩ := insertLoop_spec file_path last_modified rest (i + 1) db2
    have hstep : insertLoop file_path last_modified db i (emb :: rest) =
        ((insertLoop file_path last_modified db2 (i + 1) rest).1,
         nid :: (insertLoop file_path last_modified db2 (i + 1) rest).2) := by
      rw [insertLoop]
    rw [hstep]
    refine ⟨by simpa using ih1, ?_⟩
    have hrowkeep : keepOutside file_path (i + 1) rest.length row = true := by
      simp [keepOutside, hrow]
    have hfilter2 : db2.filter (keepOutside file_path (i + 1) rest.length) =
        db.filter (keepOutside file_path i (rest.length + 1)) ++ [row] := by
      rw [hdb2, List.filter_append, hdb1, List.filter_filter]
      rw [List.filter_congr (fun c _ => keepOutside_split file_path i rest.length c)]
      simp [hrowkeep]
    simp only [ih2, hfilter2, List.enumFrom, List.zip_cons_cons, List.map_cons,
      List.length_cons]
    simp [List.append_assoc]

/-- Claim C4 — `insert_or_update_embedding` replaces the file's chunks with
exactly one chunk per embedding, keyed by position: the resulting table is
the other files' rows unchanged, followed by one fresh row per embedding at
chunk indices `0 .. len - 1`; every pre-existing chunk of the file whose
index is `≥ len(embeddings)` (and, ids being reissued, every pre-existing
row of the file) is gone; the returned id list has length `len(embeddings)`
and lists, in chunk-index order, the ids of the stored rows. -/
theorem insert_or_update_embedding_spec (db : Store) (file_path : String)
    (embs : List Vec) (last_modified : Int) :
    (insert_or_update_embedding db file_path embs last_modified).2.length = embs.length ∧
    (insert_or_update_embedding db file_path embs last_modified).1 =
      db.filter (fun c => !(decide (c.file_path = file_path))) ++
        ((insert_or_update_embedding db file_path embs last_modified).2.zip
            (embs.enumFrom 0)).map
          (fun p => ⟨p.1, file_path, p.2.1, p.2.2, last_modified⟩) := by
  unfold insert_or_update_embedding
  obtain ⟨h1, h2⟩ := insertLoop_spec file_path last_modified embs 0
    (db.filter (fun c =>
      !(decide (c.file_path = file_path) && decide (c.chunk_index ∈
        ((db.filter (fun c => decide (c.file_path = file_path))).map
          (fun c => c.chunk_index)).filter
            (fun i => !(decide (i ∈ List.range embs.length)))))))
  refine ⟨h1, ?_⟩
  rw [h2, List.filter_filter]
  have hcongr : ∀ c ∈ db,
      (keepOutside file_path 0 embs.length c &&
        !(decide (c.file_path = file_path) && decide (c.chunk_index ∈
          ((db.filter (fun c => decide (c.file_path = file_path))).map
            (fun c => c.chunk_index)).filter
              (fun i => !(decide (i ∈ List.range embs.length))))))
        = !(decide (c.file_path = file_path)) := by
    intro c hc
    by_cases hfp : c.file_path = file_path
    · have hmem : c.chunk_index ∈
          (db.filter (fun c => decide (c.file_path = file_path))).map
            (fun c => c.chunk_index) :=
        List.mem_map_of_mem _ (List.mem_filter.mpr ⟨hc, by simp [hfp]⟩)
      rw [Bool.eq_iff_iff]
      by_cases hrange : c.chunk_index < embs.length
      · simp [keepOutside, hfp, hrange]
      · simp [keepOutside, hfp, hrange, List.mem_filter, hmem, List.mem_range]
    · rw [Bool.eq_iff_iff]
      simp [keepOutside, hfp]
  rw [List.filter_congr hcongr]

/-- The rows of the upserted file after `insert_or_update_embedding`: exactly
the freshly inserted rows, in chunk-index order, carrying the returned ids. -/
theorem upsert_filter_file (db : Store) (file_path : String) (embs : List Vec)
    (last_modified : Int) :
    (insert_or_update_embedding db file_path embs last_modified).1.filter
      (fun c => decide (c.file_path = file_path)) =
      ((insert_or_update_embedding db file_path embs last_modified).2.zip
          (embs.enumFrom 0)).map
        (fun p => ⟨p.1, file_path, p.2.1, p.2.2, last_modified⟩) := by
  obtain ⟨h1, h2⟩ := insert_or_update_embedding_spec db file_path embs last_modified
  rw [h2, List.filter_append]
  have hl : (db.filter (fun c => !(decide (c.file_path = file_path)))).filter
      (fun c => decide (c.file_path = file_path)) = [] := by
    refine List.filter_eq_nil_iff.mpr ?_
    intro a ha
    have := (List.mem_filter.mp ha).2
    simpa using this
  have hr : (((insert_or_update_embedding db file_path embs last_modified).2.zip
      (embs.enumFrom 0)).map
        (fun p => (⟨p.1, file_path, p.2.1, p.2.2, last_modified⟩ : Chunk))).filter
      (fun c => decide (c.file_path = file_path)) =
      ((insert_or_update_embedding db file_path embs last_modified).2.zip
          (embs.enumFrom 0)).map
        (fun p => (⟨p.1, file_path, p.2.1, p.2.2, last_modified⟩ : Chunk)) := by
    refine List.filter_eq_self.mpr ?_
    intro a ha
    obtain ⟨p, _, rfl⟩ := List.mem_map.mp ha
    simp
  rw [hl, hr, List.nil_append]

/-- The ids of the upserted file's rows are exactly the returned id list. -/
theorem upsert_file_ids (db : Store) (file_path : String) (embs : List Vec)
    (last_modified : Int) :
    ((insert_or_update_embedding db file_path embs last_modified).1.filter
      (fun c => decide (c.file_path = file_path))).map (fun c => c.id) =
      (insert_or_update_embedding db file_path embs last_modified).2 := by
  rw [upsert_filter_file, List.map_map]
  have hlen : (embs.enumFrom 0).length =
      (insert_or_update_embedding db file_path embs last_modified).2.length := by
    rw [List.enumFrom_length, (insert_or_update_embedding_spec db file_path embs last_modified).1]
  have : ((insert_or_update_embedding db file_path embs last_modified).2.zip
      (embs.enumFrom 0)).map
        ((fun c => c.id) ∘ (fun p => (⟨p.1, file_path, p.2.1, p.2.2, last_modified⟩ : Chunk))) =
      ((insert_or_update_embedding db file_path embs last_modified).2.zip
        (embs.enumFrom 0)).map Prod.fst := by
    apply List.map_congr_left
    intro a _
    rfl
  rw [this, List.map_fst_zip _ _ (le_of_eq hlen.symm)]

/-- The `chunks_to_remove` diff of `Indexer.update_index` is computed from
the table state *after* the upsert, so it is always empty: the per-file
update never removes anything from the FAISS index — it only appends the
fresh entries (or leaves the index untouched when it skips). -/
theorem update_index_never_removes (embed : String → List Vec) (file_path : String)
    (mtime : Int) (extracted : String) (force_update : Bool) (s : SysState) :
    ∃ added : List (Nat × Vec),
      (update_index embed file_path mtime extracted force_update s).index =
        s.index ++ added := by
  unfold update_index
  by_cases hgate : (force_update || (get_last_modified_time s.db file_path).isNone ||
      (match get_last_modified_time s.db file_path with
       | none => true
       | some t => decide (t < mtime))) = true
  · rw [if_pos hgate]
    by_cases htext : preamble file_path ++ "\n\n" ++ extracted = ""
    · rw [if_pos htext]
      exact ⟨[], by simp⟩
    · rw [if_neg htext]
      have hrm : (((insert_or_update_embedding s.db file_path
            (embed (preamble file_path ++ "\n\n" ++ extracted)) mtime).1.filter
          (fun c => decide (c.file_path = file_path))).map (fun c => c.id)).filter
            (fun i => !(decide (i ∈ (insert_or_update_embedding s.db file_path
              (embed (preamble file_path ++ "\n\n" ++ extracted)) mtime).2))) = [] := by
        rw [upsert_file_ids]
        refine List.filter_eq_nil_iff.mpr ?_
        intro a ha
        simp [ha]
      refine ⟨((insert_or_update_embedding s.db file_path
        (embed (preamble file_path ++ "\n\n" ++ extracted)) mtime).2.zip
          (embed (preamble file_path ++ "\n\n" ++ extracted))), ?_⟩
      simp [hrm, add_with_ids]
  · rw [if_neg hgate]
    exact ⟨[], by simp⟩

/-- Claim C3: re-running the per-file update with `force=false` on a file
whose on-disk mtime does not exceed the stored watermark changes nothing:
neither store is written and the callback does not fire. -/
theorem update_index_skip_unchanged (embed : String → List Vec) (file_path : String)
    (mtime : Int) (extracted : String) (s : SysState) (t : Int)
    (h1 : get_last_modified_time s.db file_path = some t) (h2 : mtime ≤ t) :
    update_index embed file_path mtime extracted false s = s := by
  have hlt : ¬ (t < mtime) := by omega
  simp [update_index, h1, hlt]

theorem update_index_skip_unchanged_witness :
    get_last_modified_time [⟨1, "a", 0, [0], 5⟩] "a" = some 5 ∧ (5 : Int) ≤ 5 ∧
    update_index eEmbed "a" 5 "x" false ⟨[⟨1, "a", 0, [0], 5⟩], [(1, [0])], 0⟩ =
      ⟨[⟨1, "a", 0, [0], 5⟩], [(1, [0])], 0⟩ :=
  ⟨by decide, by decide,
    update_index_skip_unchanged eEmbed "a" 5 "x" ⟨[⟨1, "a", 0, [0], 5⟩], [(1, [0])], 0⟩ 5
      (by decide) (by decide)⟩

/-- Claim C10: deleting a file that has no chunks in the store is a complete
no-op — the store, the index and the callback counter are all unchanged. -/
theorem remove_from_index_no_chunks (file_path : String) (s : SysState)
    (h : s.db.filter (fun c => decide (c.file_path = file_path)) = []) :
    remove_from_index file_path s = s := by
  simp [remove_from_index, h]

theorem remove_from_index_no_chunks_witness :
    ([⟨1, "a", 0, [0], 5⟩] : Store).filter (fun c => decide (c.file_path = "b")) = [] ∧
    remove_from_index "b" ⟨[⟨1, "a", 0, [0], 5⟩], [(1, [0])], 0⟩ =
      ⟨[⟨1, "a", 0, [0], 5⟩], [(1, [0])], 0⟩ :=
  ⟨by decide,
    remove_from_index_no_chunks "b" ⟨[⟨1, "a", 0, [0], 5⟩], [(1, [0])], 0⟩ (by decide)⟩

/-- Claim C8: handling a file deletion removes every chunk of the file from
the store and every entry carrying one of the file's chunk ids from the
index, leaving other rows and entries in place; in the concrete scenario
with ids 1,2 for `a.txt` and id 3 for `b.txt`, deleting `a.txt` leaves only
id 3 in both stores, so a subsequent index search yields only id 3 (or the
`-1` sentinel for the unfilled slots). -/
theorem remove_from_index_spec :
    (∀ (file_path : String) (s : SysState),
      (remove_from_index file_path s).db.filter
        (fun c => decide (c.file_path = file_path)) = [] ∧
      (remove_from_index file_path s).db.filter
          (fun c => !(decide (c.file_path = file_path))) =
        s.db.filter (fun c => !(decide (c.file_path = file_path))) ∧
      ∀ e ∈ (remove_from_index file_path s).index,
        e ∈ s.index ∧
          e.1 ∉ (s.db.filter (fun c => decide (c.file_path = file_path))).map
            (fun c => c.id)) ∧
    ((remove_from_index "a.txt"
        ⟨[⟨1, "a.txt", 0, [0], 1⟩, ⟨2, "a.txt", 1, [1], 1⟩, ⟨3, "b.txt", 0, [5], 1⟩],
         [(1, [0]), (2, [1]), (3, [5])], 0⟩).db.map (fun c => c.id) = [3] ∧
      (remove_from_index "a.txt"
        ⟨[⟨1, "a.txt", 0, [0], 1⟩, ⟨2, "a.txt", 1, [1], 1⟩, ⟨3, "b.txt", 0, [5], 1⟩],
         [(1, [0]), (2, [1]), (3, [5])], 0⟩).index.map (fun e => e.1) = [3] ∧
      ∀ p ∈ knn (remove_from_index "a.txt"
        ⟨[⟨1, "a.txt", 0, [0], 1⟩, ⟨2, "a.txt", 1, [1], 1⟩, ⟨3, "b.txt", 0, [5], 1⟩],
         [(1, [0]), (2, [1]), (3, [5])], 0⟩).index [0] 5, p.1 = 3 ∨ p.1 = -1) := by
  constructor
  · intro file_path s
    unfold remove_from_index
    by_cases hempty : ((s.db.filter (fun c => decide (c.file_path = file_path))).map
        (fun c => c.id)).isEmpty = true
    · rw [if_pos hempty]
      have hnil : s.db.filter (fun c => decide (c.file_path = file_path)) = [] := by
        have := List.isEmpty_iff.mp hempty
        exact List.map_eq_nil_iff.mp this
      refine ⟨hnil, rfl, ?_⟩
      intro e he
      refine ⟨he, ?_⟩
      simp [hnil]
    · rw [if_neg hempty]
      refine ⟨?_, ?_, ?_⟩
      · refine List.filter_eq_nil_iff.mpr ?_
        intro a ha
        have := (List.mem_filter.mp ha).2
        simpa using this
      · simp [List.filter_filter, Bool.and_self]
      · intro e he
        have hmem := List.mem_filter.mp he
        refine ⟨hmem.1, ?_⟩
        have := hmem.2
        simpa using this
  · refine ⟨by decide, by decide, by decide⟩

/-- Claim C1 (evaluation at a failing input): index `a` (one chunk, id 1)
and `b` (one chunk, id 2), then re-index `a` with force; the upsert reissues
id 3 for `a`'s chunk, but because `Indexer.update_index` queries the table
*after* the upsert, its removal diff is empty and the stale id 1 is left in
the FAISS index: the index holds ids `\x7b1, 2, 3\x7d` while the store holds
`\x7b2, 3\x7d` — the bijection invariant fails after a completed per-file
update. -/
theorem update_index_bijection_fails :
    (((update_index eEmbed "a" 20 "A2" true
        (update_index eEmbed "b" 10 "B" true
          (update_index eEmbed "a" 10 "A" true ⟨[], [], 0⟩))).db.map
      (fun c => c.id)) = [2, 3]) ∧
    (((update_index eEmbed "a" 20 "A2" true
        (update_index eEmbed "b" 10 "B" true
          (update_index eEmbed "a" 10 "A" true ⟨[], [], 0⟩))).index.map
      (fun e => e.1)) = [1, 2, 3]) ∧
    (1 : Nat) ∈ ((update_index eEmbed "a" 20 "A2" true
        (update_index eEmbed "b" 10 "B" true
          (update_index eEmbed "a" 10 "A" true ⟨[], [], 0⟩))).index.map
      (fun e => e.1)) ∧
    (1 : Nat) ∉ ((update_index eEmbed "a" 20 "A2" true
        (update_index eEmbed "b" 10 "B" true
          (update_index eEmbed "a" 10 "A" true ⟨[], [], 0⟩))).db.map
      (fun c => c.id)) := by
  refine ⟨by decide, by decide, by decide, by decide⟩

/-- The preamble makes the embedded text nonempty whatever the extracted
content is. -/
theorem preamble_text_ne_empty (file_path e : String) :
    preamble file_path ++ "\n\n" ++ e ≠ "" := by
  intro h
  have hd := congrArg String.data h
  rw [String.data_append, String.data_append] at hd
  have hempty : (("" : String)).data = [] := rfl
  rw [hempty] at hd
  have h2 := (List.append_eq_nil.mp (List.append_eq_nil.mp hd).1).2
  exact absurd h2 (by decide)

/-- Claim C2 (counterexample): the file `a` is unreadable (`readFile` fails),
so extraction yields `""`; the claim predicts the update ends with zero
chunks for `a`, but the preamble is embedded instead and the file ends the
update with 1 chunk. -/
theorem update_index_unreadable_counterexample :
    extract_text_from_file (fun _ => none) (fun _ => none) "a" = "" ∧
    ¬ (((update_index eEmbed "a" 20
          (extract_text_from_file (fun _ => none) (fun _ => none) "a") true
          ⟨[⟨1, "a", 0, [7], 5⟩, ⟨2, "a", 1, [8], 5⟩], [(1, [7]), (2, [8])], 0⟩).db.filter
        (fun c => decide (c.file_path = "a"))).length = 0) ∧
    ((update_index eEmbed "a" 20
          (extract_text_from_file (fun _ => none) (fun _ => none) "a") true
          ⟨[⟨1, "a", 0, [7], 5⟩, ⟨2, "a", 1, [8], 5⟩], [(1, [7]), (2, [8])], 0⟩).db.filter
        (fun c => decide (c.file_path = "a"))).length = 1 := by
  refine ⟨by decide, by decide, by decide⟩

/-- Claim C2 (amended): for an unreadable or non-indexable file the
extraction yields `""`, but the per-file update does *not* behave as if the
content were empty — the file-information preamble is prepended, the
embedder runs on the preamble alone, and the upsert stores the preamble's
chunks: the file ends the update with exactly the preamble's chunks (prior
chunks at indices beyond that count are pruned), not with zero chunks. -/
theorem update_index_unreadable (embed : String → List Vec) (file_path : String)
    (mtime : Int) (s : SysState) :
    ((update_index embed file_path mtime "" true s).db.filter
      (fun c => decide (c.file_path = file_path))).map
        (fun c => (c.chunk_index, c.embedding)) =
      (embed (preamble file_path ++ "\n\n")).enumFrom 0 := by
  have htext : preamble file_path ++ "\n\n" ++ "" = preamble file_path ++ "\n\n" := by
    simp
  have hne : ¬ (preamble file_path ++ "\n\n" ++ "" = "") := preamble_text_ne_empty file_path ""
  unfold update_index
  rw [if_pos (by simp), if_neg hne]
  simp only [htext]
  rw [upsert_filter_file, List.map_map]
  have hcomp : ((insert_or_update_embedding s.db file_path
      (embed (preamble file_path ++ "\n\n")) mtime).2.zip
        ((embed (preamble file_path ++ "\n\n")).enumFrom 0)).map
      ((fun c => (c.chunk_index, c.embedding)) ∘ fun p =>
        (⟨p.1, file_path, p.2.1, p.2.2, mtime⟩ : Chunk)) =
      ((insert_or_update_embedding s.db file_path
        (embed (preamble file_path ++ "\n\n")) mtime).2.zip
          ((embed (preamble file_path ++ "\n\n")).enumFrom 0)).map Prod.snd :=
    List.map_congr_left (fun a _ => rfl)
  rw [hcomp, List.map_snd_zip]
  rw [(insert_or_update_embedding_spec s.db file_path
    (embed (preamble file_path ++ "\n\n")) mtime).1, List.enumFrom_length]

/-- Claim C6: when `top_n` is given the search requests `5 * top_n`
candidates from the index; when it is absent both the effective `top_n` and
the candidate count are the distinct-file count of the store at query
time. -/
theorem search_task_overscan (db : Store) (index : Index) (q : Vec) (c : Bool) :
    (∀ n : Nat, search_task_params db (some n) = (n, 5 * n) ∧
      search_task db index q (some n) c = search_walk db c (knn index q (5 * n)) n) ∧
    (search_task_params db none = (countDistinctFiles db, countDistinctFiles db) ∧
      search_task db index q none c =
        search_walk db c (knn index q (countDistinctFiles db)) (countDistinctFiles db)) :=
  ⟨fun _ => ⟨rfl, rfl⟩, rfl, rfl⟩

/-- Claim C7 (counterexample): the worker-side outcome of a cancelled query
is the empty list — exactly the outcome of a successful query over an empty
store — even though the uncancelled walk over the same candidates would
return a nonempty result.  The cancelled outcome is therefore not
distinguishable from a successful empty result. -/
theorem search_cancelled_indistinguishable :
    search_walk [⟨1, "a", 0, [0], 1⟩] true [(1, 0)] 5 = [] ∧
    search_walk [] false [(1, 0)] 5 = [] ∧
    search_walk [⟨1, "a", 0, [0], 1⟩] true [(1, 0)] 5 =
      search_walk [] false [(1, 0)] 5 ∧
    search_walk [⟨1, "a", 0, [0], 1⟩] false [(1, 0)] 5 = [("a", 0)] := by
  refine ⟨by decide, by decide, by decide, by decide⟩

/-- Claim C7 (amended): a query execution that observes its cancellation
returns the empty list, the same value as a successful query with no
results; only the empty list — never a partial result — is returned for a
cancelled walk. -/
theorem search_walk_cancelled (db : Store) (cands : List (Int × Int)) (top_n : Nat) :
    search_walk db true cands top_n = [] := by
  rcases cands with _ | ⟨⟨a, b⟩, t⟩ <;> rfl

/-- The `-1` sentinel never resolves to a row: table ids are nonnegative. -/
theorem db_file_path_neg_one (db : Store) : db_file_path db (-1) = none := by
  unfold db_file_path
  have hnone : db.find? (fun c => decide ((c.id : Int) = -1)) = none := by
    rw [List.find?_eq_none]
    intro c _
    simp
  rw [hnone]
  rfl

/-- `find_dist` returns the distance of the first occurrence of `idx`, which
under an ascending-distance candidate list is bounded by the distance of any
occurrence of `idx`. -/
theorem find_dist_le (orig : List (Int × Int)) (idx d : Int)
    (hsorted : orig.Pairwise (fun x y => x.2 ≤ y.2))
    (hmem : (idx, d) ∈ orig) :
    (∃ p ∈ orig, p.1 = idx ∧ find_dist orig idx = p.2) ∧ find_dist orig idx ≤ d := by
  cases hfind : orig.find? (fun p => decide (p.1 = idx)) with
  | none =>
    exfalso
    rw [List.find?_eq_none] at hfind
    exact hfind (idx, d) hmem (by simp)
  | some pstar =>
    obtain ⟨hp, as, bs, hdecomp, hnotin⟩ := List.find?_eq_some.mp hfind
    have hp1 : pstar.1 = idx := by simpa using hp
    have hfd : find_dist orig idx = pstar.2 := by simp [find_dist, hfind]
    refine ⟨⟨pstar, List.mem_of_find?_eq_some hfind, hp1, hfd⟩, ?_⟩
    rw [hfd]
    rw [hdecomp] at hmem
    rcases List.mem_append.mp hmem with hin | hin
    · exfalso
      have := hnotin (idx, d) hin
      simp at this
    · rcases List.mem_cons.mp hin with heq | hin2
      · rw [← heq]
      · have hpw : (pstar :: bs).Pairwise (fun x y => x.2 ≤ y.2) := by
          rw [hdecomp] at hsorted
          exact (List.pairwise_append.mp hsorted).2.1
        exact (List.pairwise_cons.mp hpw).1 (idx, d) hin2

/-- The invariant-carrying induction behind the result walk of
`Searcher._search_task`: starting from accumulators `res`/`uniq` that are
consistent with the already `consumed` prefix of the candidate list, the
walk returns at most `top_n` results over pairwise-distinct files, every
result is a resolvable candidate at the distance of the file's closest
candidate chunk, and — unless it filled up — the walk misses no resolvable
file. -/
theorem search_walk_go_master (db : Store) (orig : List (Int × Int)) (top_n : Nat)
    (hsorted : orig.Pairwise (fun x y => x.2 ≤ y.2))
    (sa sb : List (Int × Int)) (hab : orig = sa ++ sb)
    (hsa : ∀ p ∈ sa, p.1 ≠ -1) (hsb : ∀ p ∈ sb, p.1 = -1) :
    ∀ (cands : List (Int × Int)) (res : List (String × Int)) (uniq : List String)
      (consumed : List (Int × Int)),
      orig = consumed ++ cands →
      (∀ fp, fp ∈ uniq ↔ fp ∈ res.map Prod.fst) →
      res.length < top_n →
      (res.map Prod.fst).Nodup →
      (∀ p ∈ consumed, ∀ fp, db_file_path db p.1 = some fp → fp ∈ uniq) →
      (∀ x ∈ res, ∃ p ∈ orig, db_file_path db p.1 = some x.1 ∧ x.2 = p.2 ∧
        ∀ q ∈ orig, db_file_path db q.1 = some x.1 → x.2 ≤ q.2) →
      ((search_walk_go db false orig top_n cands res uniq).length ≤ top_n ∧
       ((search_walk_go db false orig top_n cands res uniq).map Prod.fst).Nodup ∧
       (∀ x ∈ search_walk_go db false orig top_n cands res uniq, ∃ p ∈ orig,
         db_file_path db p.1 = some x.1 ∧ x.2 = p.2 ∧
         ∀ q ∈ orig, db_file_path db q.1 = some x.1 → x.2 ≤ q.2) ∧
       ((search_walk_go db false orig top_n cands res uniq).length < top_n →
        ∀ p ∈ orig, ∀ fp, db_file_path db p.1 = some fp →
          fp ∈ (search_walk_go db false orig top_n cands res uniq).map Prod.fst)) := by
  intro cands
  induction cands with
  | nil =>
    intro res uniq consumed hsplit hinv1 hlen hnodup hcons hgood
    simp only [search_walk_go]
    refine ⟨le_of_lt hlen, hnodup, hgood, ?_⟩
    intro _ p hp fp hfp
    have hpc : p ∈ consumed := by
      rw [hsplit, List.append_nil] at hp
      exact hp
    exact (hinv1 fp).mp (hcons p hpc fp hfp)
  | cons head rest ih =>
    intro res uniq consumed hsplit hinv1 hlen hnodup hcons hgood
    obtain ⟨idx, d⟩ := head
    rw [search_walk_go]
    rw [if_neg (by simp)]
    by_cases hidx : idx = -1
    · rw [if_pos hidx]
      refine ⟨le_of_lt hlen, hnodup, hgood, ?_⟩
      intro _ p hp fp hfp
      have hpa : p ∈ sa := by
        rw [hab] at hp
        rcases List.mem_append.mp hp with h1 | h2
        · exact h1
        · exfalso
          rw [hsb p h2, db_file_path_neg_one] at hfp
          exact Option.noConfusion hfp
      have hpc : p ∈ consumed := by
        have heq : consumed ++ ((idx, d) :: rest) = sa ++ sb := by
          rw [← hsplit, ← hab]
        rcases List.append_eq_append_iff.mp heq with ⟨k, hk1, hk2⟩ | ⟨k, hk1, hk2⟩
        · cases k with
          | nil =>
            rw [List.append_nil] at hk1
            rw [← hk1]
            exact hpa
          | cons kh kt =>
            exfalso
            have hkh : (idx, d) = kh := by
              rw [List.cons_append] at hk2
              exact (List.cons.injEq _ _ _ _ ▸ hk2).1
            have hkha : kh ∈ sa := by
              rw [hk1]
              simp
            have := hsa kh hkha
            rw [← hkh] at this
            exact this hidx
        · rw [hk1]
          exact List.mem_append.mpr (Or.inl hpa)
      exact (hinv1 fp).mp (hcons p hpc fp hfp)
    · rw [if_neg hidx]
      cases hdb : db_file_path db idx with
      | none =>
        simp only [hdb]
        refine ih res uniq (consumed ++ [(idx, d)]) ?_ hinv1 hlen hnodup ?_ hgood
        · rw [hsplit, List.append_assoc, List.singleton_append]
        · intro p hp fp hfp
          rcases List.mem_append.mp hp with h1 | h2
          · exact hcons p h1 fp hfp
          · rw [List.mem_singleton.mp h2] at hfp
            rw [hdb] at hfp
            exact Option.noConfusion hfp
      | some fp =>
        simp only [hdb]
        by_cases huniq : fp ∈ uniq
        · rw [if_pos (by simpa using huniq)]
          refine ih res uniq (consumed ++ [(idx, d)]) ?_ hinv1 hlen hnodup ?_ hgood
          · rw [hsplit, List.append_assoc, List.singleton_append]
          · intro p hp fp2 hfp2
            rcases List.mem_append.mp hp with h1 | h2
            · exact hcons p h1 fp2 hfp2
            · rw [List.mem_singleton.mp h2] at hfp2
              rw [hdb] at hfp2
              exact (Option.some.inj hfp2) ▸ huniq
        · rw [if_neg (by simpa using huniq)]
          have hfpnot : fp ∉ res.map Prod.fst := fun h => huniq ((hinv1 fp).mpr h)
          have hgoodx : ∃ p ∈ orig, db_file_path db p.1 = some fp ∧
              find_dist orig idx = p.2 ∧
              ∀ q ∈ orig, db_file_path db q.1 = some fp → find_dist orig idx ≤ q.2 := by
            have hmemhead : ((idx, d) : Int × Int) ∈ orig := by
              rw [hsplit]
              simp
            obtain ⟨⟨pstar, hpmem, hp1, hfd⟩, hfdle⟩ :=
              find_dist_le orig idx d hsorted hmemhead
            refine ⟨pstar, hpmem, by rw [hp1, hdb], hfd, ?_⟩
            intro q hq hqfp
            have hq2 := hq
            rw [hsplit] at hq2
            rcases List.mem_append.mp hq2 with hqc | hqcr
            · exact absurd (hcons q hqc fp hqfp) huniq
            · rcases List.mem_cons.mp hqcr with hqe | hqr
              · rw [hqe]
                exact hfdle
              · have hd_le : d ≤ q.2 := by
                  have h2 := hsorted
                  rw [hsplit] at h2
                  have h3 := (List.pairwise_append.mp h2).2.1
                  exact (List.pairwise_cons.mp h3).1 q hqr
                exact le_trans hfdle hd_le
          have hnodup2 : ((res ++ [(fp, find_dist orig idx)]).map Prod.fst).Nodup := by
            rw [List.map_append]
            simp only [List.map_cons, List.map_nil]
            rw [List.nodup_append]
            exact ⟨hnodup, List.nodup_singleton fp, by simpa using hfpnot⟩
          have hgood2 : ∀ x ∈ res ++ [(fp, find_dist orig idx)], ∃ p ∈ orig,
              db_file_path db p.1 = some x.1 ∧ x.2 = p.2 ∧
              ∀ q ∈ orig, db_file_path db q.1 = some x.1 → x.2 ≤ q.2 := by
            intro x hx
            rcases List.mem_append.mp hx with hx1 | hx2
            · exact hgood x hx1
            · rw [List.mem_singleton.mp hx2]
              obtain ⟨p, hpmem, hpfp, hpd, hpmin⟩ := hgoodx
              exact ⟨p, hpmem, hpfp, hpd, hpmin⟩
          by_cases hstop : (res ++ [(fp, find_dist orig idx)]).length = top_n
          · rw [if_pos hstop]
            refine ⟨le_of_eq hstop, hnodup2, hgood2, ?_⟩
            intro hcontra
            rw [hstop] at hcontra
            exact absurd hcontra (lt_irrefl top_n)
          · rw [if_neg hstop]
            refine ih (res ++ [(fp, find_dist orig idx)]) (fp :: uniq)
              (consumed ++ [(idx, d)]) ?_ ?_ ?_ hnodup2 ?_ hgood2
            · rw [hsplit, List.append_assoc, List.singleton_append]
            · intro fp2
              rw [List.map_append]
              simp only [List.map_cons, List.map_nil]
              constructor
              · intro h
                rcases List.mem_cons.mp h with h1 | h2
                · exact List.mem_append.mpr (Or.inr (by simp [h1]))
                · exact List.mem_append.mpr (Or.inl ((hinv1 fp2).mp h2))
              · intro h
                rcases List.mem_append.mp h with h1 | h2
                · exact List.mem_cons.mpr (Or.inr ((hinv1 fp2).mpr h1))
                · exact List.mem_cons.mpr (Or.inl (by simpa using h2))
            · have : (res ++ [(fp, find_dist orig idx)]).length = res.length + 1 := by
                simp
              omega
            · intro p hp fp2 hfp2
              rcases List.mem_append.mp hp with h1 | h2
              · exact List.mem_cons.mpr (Or.inr (hcons p h1 fp2 hfp2))
              · rw [List.mem_singleton.mp h2] at hfp2
                rw [hdb] at hfp2
                exact List.mem_cons.mpr (Or.inl (Option.some.inj hfp2).symm)

/-- Claim C5: walking an ascending-distance candidate list whose `-1`
sentinels form a suffix (the shape `IndexFlatL2.search` produces), with
`top_n ≥ 1`, the uncancelled result walk returns at most `top_n` results
over pairwise-distinct files; every returned pair resolves from a candidate
and carries the distance of that file's closest candidate chunk (sentinels,
unresolvable ids and already-emitted files are skipped, the first — closest
— occurrence wins); and unless `top_n` distinct files were collected, no
resolvable file is missed, so the walk stops only on fill-up or
exhaustion. -/
theorem search_walk_spec (db : Store) (orig : List (Int × Int)) (top_n : Nat)
    (hn : 0 < top_n)
    (hsorted : orig.Pairwise (fun x y => x.2 ≤ y.2))
    (sa sb : List (Int × Int)) (hab : orig = sa ++ sb)
    (hsa : ∀ p ∈ sa, p.1 ≠ -1) (hsb : ∀ p ∈ sb, p.1 = -1) :
    (search_walk db false orig top_n).length ≤ top_n ∧
    ((search_walk db false orig top_n).map Prod.fst).Nodup ∧
    (∀ x ∈ search_walk db false orig top_n, ∃ p ∈ orig,
      db_file_path db p.1 = some x.1 ∧ x.2 = p.2 ∧
      ∀ q ∈ orig, db_file_path db q.1 = some x.1 → x.2 ≤ q.2) ∧
    ((search_walk db false orig top_n).length < top_n →
      ∀ p ∈ orig, ∀ fp, db_file_path db p.1 = some fp →
        fp ∈ (search_walk db false orig top_n).map Prod.fst) :=
  search_walk_go_master db orig top_n hsorted sa sb hab hsa hsb orig [] [] []
    (by simp) (by simp) (by simpa using hn) (by simp) (by simp) (by simp)

theorem search_walk_spec_witness :
    ((0 : Nat) < 2 ∧ wCands.Pairwise (fun x y => x.2 ≤ y.2) ∧
      wCands = [(1, 0), (2, 1), (3, 25)] ++ [(-1, PAD_DIST)] ∧
      (∀ p ∈ ([(1, 0), (2, 1), (3, 25)] : List (Int × Int)), p.1 ≠ -1) ∧
      (∀ p ∈ ([(-1, PAD_DIST)] : List (Int × Int)), p.1 = -1)) ∧
    ((search_walk wDb false wCands 2).length ≤ 2 ∧
     ((search_walk wDb false wCands 2).map Prod.fst).Nodup ∧
     (∀ x ∈ search_walk wDb false wCands 2, ∃ p ∈ wCands,
       db_file_path wDb p.1 = some x.1 ∧ x.2 = p.2 ∧
       ∀ q ∈ wCands, db_file_path wDb q.1 = some x.1 → x.2 ≤ q.2) ∧
     ((search_walk wDb false wCands 2).length < 2 →
      ∀ p ∈ wCands, ∀ fp, db_file_path wDb p.1 = some fp →
        fp ∈ (search_walk wDb false wCands 2).map Prod.fst)) :=
  ⟨⟨by decide, by decide, by decide, by decide, by decide⟩,
    search_walk_spec wDb wCands 2 (by decide) (by decide)
      [(1, 0), (2, 1), (3, 25)] [(-1, PAD_DIST)] (by decide) (by decide) (by decide)⟩

instance : IsTotal (Int × Int) knnLe :=
  ⟨by
    intro x y
    unfold knnLe
    omega⟩

instance : IsTrans (Int × Int) knnLe :=
  ⟨by
    intro x y z
    unfold knnLe
    omega⟩

instance : IsAntisymm (Int × Int) knnLe :=
  ⟨by
    intro x y h1 h2
    unfold knnLe at h1 h2
    have hx : x.1 = y.1 ∧ x.2 = y.2 := by omega
    exact Prod.ext hx.1 hx.2⟩

/-- `knn` depends only on the multiset of index entries: permuting the
entries leaves every search result unchanged, because the candidate order
sorts scored entries by the total order `knnLe`. -/
theorem knn_perm_eq (i1 i2 : Index) (q : Vec) (k : Nat) (hperm : i1.Perm i2) :
    knn i1 q k = knn i2 q k := by
  unfold knn
  have hscored : (i1.map (fun e => ((e.1 : Int), sqDist q e.2))).Perm
      (i2.map (fun e => ((e.1 : Int), sqDist q e.2))) := hperm.map _
  have hsorted_eq : List.insertionSort knnLe (i1.map (fun e => ((e.1 : Int), sqDist q e.2))) =
      List.insertionSort knnLe (i2.map (fun e => ((e.1 : Int), sqDist q e.2))) := by
    refine List.eq_of_perm_of_sorted ?_ (List.sorted_insertionSort knnLe _)
      (List.sorted_insertionSort knnLe _)
    exact ((List.perm_insertionSort knnLe _).trans hscored).trans
      (List.perm_insertionSort knnLe _).symm
  dsimp only
  rw [hsorted_eq]

/-- Claim C9: for any store content and fixed query, resetting the
VectorIndex and repopulating it from the store as `Indexer.init_index` does
(all `(id, vector)` pairs, `ORDER BY id`) yields exactly the same search
results as any pre-reset index holding the store-derived entries (in
whatever order) — the tie order is fixed by the deterministic model, so
"identical modulo ties" holds as plain equality here. -/
theorem init_index_rebuild_equiv (store : Store) (pre : Index) (q : Vec) (k : Nat)
    (hpre : pre.Perm (store.map (fun c => (c.id, c.embedding)))) :
    knn pre q k = knn (init_index store) q k := by
  apply knn_perm_eq
  have h1 : (load_all store).Perm (store.map (fun c => (c.id, c.embedding))) :=
    (List.perm_insertionSort rowIdLe store).map _
  have h2 : init_index store = load_all store := by
    simp [init_index, add_with_ids]
  rw [h2]
  exact hpre.trans h1.symm

theorem init_index_rebuild_equiv_witness :
    ([((1 : Nat), ([0] : Vec)), (2, [3])] : Index).Perm
      (([⟨2, "b", 0, [3], 1⟩, ⟨1, "a", 0, [0], 1⟩] : Store).map
        (fun c => (c.id, c.embedding))) ∧
    knn [((1 : Nat), ([0] : Vec)), (2, [3])] [1] 2 =
      knn (init_index [⟨2, "b", 0, [3], 1⟩, ⟨1, "a", 0, [0], 1⟩]) [1] 2 :=
  ⟨by decide,
    init_index_rebuild_equiv [⟨2, "b", 0, [3], 1⟩, ⟨1, "a", 0, [0], 1⟩]
      [((1 : Nat), ([0] : Vec)), (2, [3])] [1] 2 (by decide)⟩

end LLMSearch
